import Mathlib

/-!
Verification of the stream ingestion and stage-progression engine of the
Syncer repository.

The definitions below are a shallow embedding of the TypeScript source:

* `src/types/stream.ts` — the `StreamStatus` / `StreamPacket` /
  `ConnectionInfo` data model, and the polling hook variant
  (`fetchAndProcessBlock`, its progression interval).
* `src/hooks/useSomniaStreams.ts` — `getNextStatus`, `deduplicateStreams`,
  the ingestion merge inside `setStreams`, and the progression interval.

Modelling conventions: JS numbers holding millisecond timestamps and counters
become `Nat`; the wei value of a transaction becomes `Option Nat` and the
derived native-unit value an exact rational (the source divides a JS number by
1e18 and compares against the literal 0.01; all claims under scrutiny are far
from any double-rounding boundary, so exact rational arithmetic is the
faithful reading).  A JS `Map` iterated with `Array.from(map.values())`
enumerates values in key-insertion order, with `set` on an existing key
updating in place; `mapSet` below implements exactly that on an association
list.  The JS truthiness test `stream.lastStageTime && ...` is embedded as
`lastStageTime ≠ 0`.
-/

namespace Syncer

/-- `StreamStatus` from `src/types/stream.ts`: the four pipeline stages. -/
inductive StreamStatus where
  | streamed
  | indexed
  | consolidated
  | finalized
deriving DecidableEq

/-- The fields that the engine writes into a packet's free-form `data` record
(the `newStreams` mapper in both hook variants; the `types/stream.ts` variant
additionally stores `txHash`/`blockHash`).  The source stores `value` as the
display string `txValue.toFixed(6) + " " + symbol`; here the underlying
native-unit value is kept as the exact rational it formats. -/
structure PacketData where
  toDisplay : String
  valueNative : ℚ
  gasDisplay : String
  typeDisplay : String
  txHash : Option String
  blockHash : Option String
deriving DecidableEq

/-- `StreamPacket` from `src/types/stream.ts`. -/
structure StreamPacket where
  id : String
  status : StreamStatus
  timestamp : Nat
  eventType : String
  source : String
  data : PacketData
  confirmations : Nat
  hash : String
  lastStageTime : Nat
  blockNumber : Nat
deriving DecidableEq

/-- `STAGE_DURATION` (300 ms) in both hook variants. -/
def STAGE_DURATION : Nat := 300

/-- `MAX_STREAMS` (100) in both hook variants. -/
def MAX_STREAMS : Nat := 100

/-- `MAX_TX_PER_BLOCK` (50) in both hook variants. -/
def MAX_TX_PER_BLOCK : Nat := 50

/-- `getNextStatus` (`src/hooks/useSomniaStreams.ts:55`): the
`statusProgression` record lookup. -/
def getNextStatus : StreamStatus → StreamStatus
  | .streamed => .indexed
  | .indexed => .consolidated
  | .consolidated => .finalized
  | .finalized => .finalized

/-- The `statusOrder` table used inside `deduplicateStreams`
(`src/hooks/useSomniaStreams.ts:74`). -/
def statusOrder : StreamStatus → Nat
  | .streamed => 0
  | .indexed => 1
  | .consolidated => 2
  | .finalized => 3

/-- JS `Map.set` on an insertion-ordered association list: replace the entry
whose key (packet `id`) matches, keeping its position; append at the end when
the key is new. -/
def mapSet : List StreamPacket → StreamPacket → List StreamPacket
  | [], s => [s]
  | e :: rest, s => if e.id = s.id then s :: rest else e :: mapSet rest s

/-- One iteration of the `for (const stream of streams)` loop of
`deduplicateStreams` (`src/hooks/useSomniaStreams.ts:66`): if the id is
unseen, insert; otherwise replace only when the incoming status order is
strictly greater. -/
def dedupStep (acc : List StreamPacket) (s : StreamPacket) : List StreamPacket :=
  match acc.find? (fun e => e.id == s.id) with
  | none => acc ++ [s]
  | some existing =>
      if statusOrder existing.status < statusOrder s.status then mapSet acc s else acc

/-- `deduplicateStreams` (`src/hooks/useSomniaStreams.ts:66`): fold the
incoming sequence through a JS `Map` keyed by `id` and enumerate the values in
key-insertion order. -/
def deduplicateStreams (l : List StreamPacket) : List StreamPacket :=
  l.foldl dedupStep []

/-- The `setStreams` updater of an ingestion tick
(`src/hooks/useSomniaStreams.ts:193` and `src/types/stream.ts:211`): drop
incoming packets whose id is already present, and if any remain, prepend them,
deduplicate and truncate to `MAX_STREAMS`; otherwise return the previous
collection unchanged. -/
def ingestMerge (newStreams prev : List StreamPacket) : List StreamPacket :=
  let existingIds := prev.map (fun s => s.id)
  let uniqueNewStreams := newStreams.filter (fun s => decide (s.id ∉ existingIds))
  if 0 < uniqueNewStreams.length then
    (deduplicateStreams (uniqueNewStreams ++ prev)).take MAX_STREAMS
  else prev

/-- The per-packet body of the progression interval
(`src/hooks/useSomniaStreams.ts:427` and `src/types/stream.ts:287`).  The
source guards with the truthy test `stream.lastStageTime &&`, embedded as
`lastStageTime ≠ 0`. -/
def progressPacket (now : Nat) (stream : StreamPacket) : StreamPacket :=
  if stream.status = .finalized then
    { stream with confirmations := 3 }
  else if stream.lastStageTime ≠ 0 ∧ STAGE_DURATION ≤ now - stream.lastStageTime then
    let nextStatus := getNextStatus stream.status
    if nextStatus ≠ stream.status then
      { stream with
        status := nextStatus, lastStageTime := now,
        confirmations := stream.confirmations + 1 }
    else stream
  else stream

/-- The `finalizedIndices` computation of the progression interval
(`src/hooks/useSomniaStreams.ts:453`): indices of the finalized packets, in
increasing order.  (The source maps non-finalized entries to `-1` and filters
those away; filtering the enumeration directly is the same list.) -/
def finalizedIndices (l : List StreamPacket) : List Nat :=
  (l.enum.filter (fun p => decide (p.2.status = .finalized))).map (fun p => p.1)

/-- One progression tick (`src/hooks/useSomniaStreams.ts:420` and
`src/types/stream.ts:281`): advance every packet, then, if over capacity,
splice out the last finalized index (or `pop` when none is finalized), and
finally re-deduplicate. -/
def progressTick (now : Nat) (prevStreams : List StreamPacket) : List StreamPacket :=
  let updatedStreams := prevStreams.map (progressPacket now)
  let afterEvict :=
    if MAX_STREAMS < updatedStreams.length then
      match (finalizedIndices updatedStreams).getLast? with
      | some indexToRemove => updatedStreams.eraseIdx indexToRemove
      | none => updatedStreams.dropLast
    else updatedStreams
  deduplicateStreams afterEvict

/-- The two events that rewrite the packet collection: an ingestion tick's
`setStreams` update carrying the freshly mapped packets, and a progression
tick at a given wall-clock time. -/
inductive Tick where
  | ingest (newStreams : List StreamPacket)
  | progress (now : Nat)

/-- Apply one tick to the packet collection. -/
def stepTick (streams : List StreamPacket) : Tick → List StreamPacket
  | .ingest newStreams => ingestMerge newStreams streams
  | .progress now => progressTick now streams

/-- The status of the live packet with a given id, if any (first match in
collection order). -/
def statusAt (x : String) (streams : List StreamPacket) : Option StreamStatus :=
  (streams.find? (fun s => s.id == x)).map (fun s => s.status)

/-- `ConnectionStatus` from `src/types/stream.ts`. -/
inductive ConnectionStatus where
  | connecting
  | connected
  | polling
  | error
  | disconnected
deriving DecidableEq

/-- `ConnectionInfo` from `src/types/stream.ts`. -/
structure ConnectionInfo where
  status : ConnectionStatus
  method : String
  error : Option String
  lastBlockTime : Option Nat
  networkName : String
  rpcUrl : String
deriving DecidableEq

/-- A raw transaction as consumed by the `newStreams` mappers: every field the
source reads, each optional because the source guards with `||` /
optional-chaining fallbacks.  `value` is in wei. -/
structure Tx where
  hash : Option String
  value : Option Nat
  toAddr : Option String
  fromAddr : Option String
  gas : Option Nat
deriving DecidableEq

/-- A fetched block as consumed by `fetchAndProcessBlock`. -/
structure Block where
  number : Nat
  hash : Option String
  transactions : List Tx
deriving DecidableEq

/-- The engine state touched by one polling tick of `src/types/stream.ts`:
the packet collection, the connection info, and the block cursor
(`lastBlockNumberRef`, whose `0n` initial value is the uninitialized
sentinel). -/
structure EngineState where
  streams : List StreamPacket
  conn : ConnectionInfo
  lastBlockNumber : Nat
deriving DecidableEq

/-- `tx.value ? Number(tx.value) / 1e18 : 0` as an exact rational (a `0n`
value is falsy in JS and yields 0 either way). -/
def txNativeValue (tx : Tx) : ℚ :=
  match tx.value with
  | some v => (v : ℚ) / 10 ^ 18
  | none => 0

/-- The materiality threshold `0.01` of the `isHighValue` test. -/
def HIGH_VALUE_THRESHOLD : ℚ := 1 / 100

/-- The transaction-to-packet mapper of the `newStreams` construction
(`src/types/stream.ts:179`; the `src/hooks/useSomniaStreams.ts:164` mapper is
identical except that it omits the `txHash`/`blockHash` data fields).  A
missing hash yields the synthetic id `tx_<now>_<index>`; the source also
treats an empty-string hash as missing (JS truthiness), which `Option.none`
covers. -/
def mkStreamPacket (now blockNumber : Nat) (blockHash : Option String)
    (index : Nat) (tx : Tx) : StreamPacket :=
  let txValue := txNativeValue tx
  let isHighValue := HIGH_VALUE_THRESHOLD < txValue
  let theId := (match tx.hash with
    | some h => h
    | none => "tx_" ++ toString now ++ "_" ++ toString index).toLower
  { id := theId
    status := .streamed
    timestamp := now
    eventType := if isHighValue then "Transfer" else "Transaction"
    source := tx.fromAddr.getD "0x0"
    data := { toDisplay := tx.toAddr.getD "Contract Creation"
              valueNative := txValue
              gasDisplay := (tx.gas.map toString).getD "N/A"
              typeDisplay := if tx.toAddr.isSome then "Transfer" else "Contract Deploy"
              txHash := tx.hash
              blockHash := blockHash }
    confirmations := 0
    hash := theId
    lastStageTime := now
    blockNumber := blockNumber }

/-- One tick of `fetchAndProcessBlock` (`src/types/stream.ts:137`).  The
external `getBlockNumber`/`getBlock` round-trip is the `input` argument: an
exception message, or the fetched head together with the block that a
subsequent `getBlock` would return for it.  The catch block only rewrites the
connection info; stats updates are out of scope. -/
def fetchAndProcessBlock (input : Except String (Nat × Block)) (now : Nat)
    (st : EngineState) : EngineState :=
  match input with
  | .error e =>
      { st with conn := { st.conn with status := .error, error := some e } }
  | .ok (latestBlockNumber, block) =>
      if st.lastBlockNumber = 0 then
        { st with
          lastBlockNumber := latestBlockNumber,
          conn := { st.conn with status := .connected, lastBlockTime := some now } }
      else if st.lastBlockNumber < latestBlockNumber then
        let txsToShow := block.transactions.take MAX_TX_PER_BLOCK
        let newStreams := txsToShow.enum.map
          (fun p => mkStreamPacket now block.number block.hash p.1 p.2)
        let st1 :=
          if 0 < txsToShow.length then
            { st with streams := ingestMerge newStreams st.streams }
          else st
        { st1 with
          lastBlockNumber := latestBlockNumber,
          conn := { st1.conn with
                    status := .connected, lastBlockTime := some now, error := none } }
      else st

/-- A minimal concrete `data` payload for scenario states. -/
def emptyData : PacketData :=
  { toDisplay := "", valueNative := 0, gasDisplay := "", typeDisplay := "",
    txHash := none, blockHash := none }

/-- A concrete packet for scenario states: id `toString i`, `lastStageTime`
1 so a progression tick at `now = 0` leaves non-finalized packets alone, and
confirmations already pinned at 3 for finalized ones. -/
def basePacket (i : Nat) (st : StreamStatus) : StreamPacket :=
  { id := toString i, status := st, timestamp := 0, eventType := "Transaction",
    source := "0x0", data := emptyData,
    confirmations := if st = .finalized then 3 else 0,
    hash := toString i, lastStageTime := 1, blockNumber := 0 }

/-! ### Basic facts about statuses and per-packet progression -/

lemma statusOrder_le_getNextStatus (s : StreamStatus) :
    statusOrder s ≤ statusOrder (getNextStatus s) := by
  cases s <;> simp [statusOrder, getNextStatus]

lemma getNextStatus_ne (s : StreamStatus) (h : s ≠ .finalized) : getNextStatus s ≠ s := by
  cases s <;> simp_all [getNextStatus]

lemma progressPacket_id (now : Nat) (s : StreamPacket) :
    (progressPacket now s).id = s.id := by
  unfold progressPacket
  split
  · rfl
  · split
    · dsimp only
      split <;> rfl
    · rfl

lemma progressPacket_status_mono (now : Nat) (s : StreamPacket) :
    statusOrder s.status ≤ statusOrder (progressPacket now s).status := by
  unfold progressPacket
  split
  · exact le_refl _
  · split
    · dsimp only
      split
      · exact statusOrder_le_getNextStatus _
      · exact le_refl _
    · exact le_refl _

lemma progressPacket_finalized (now : Nat) (s : StreamPacket)
    (h : s.status = .finalized) : (progressPacket now s).status = .finalized := by
  unfold progressPacket
  rw [if_pos h]
  exact h

/-! ### `mapSet`: JS `Map.set` on an insertion-ordered association list -/

lemma mem_mapSet {acc : List StreamPacket} {s a : StreamPacket}
    (h : a ∈ mapSet acc s) : a = s ∨ a ∈ acc := by
  induction acc with
  | nil => simpa [mapSet] using h
  | cons e rest ih =>
    by_cases he : e.id = s.id
    · rw [mapSet, if_pos he] at h
      rcases List.mem_cons.1 h with h | h
      · exact Or.inl h
      · exact Or.inr (List.mem_cons_of_mem _ h)
    · rw [mapSet, if_neg he] at h
      rcases List.mem_cons.1 h with h | h
      · exact Or.inr (h ▸ List.mem_cons_self _ _)
      · rcases ih h with h | h
        · exact Or.inl h
        · exact Or.inr (List.mem_cons_of_mem _ h)

lemma mapSet_map_id_of_mem {acc : List StreamPacket} {s : StreamPacket}
    (h : s.id ∈ acc.map (fun p => p.id)) :
    (mapSet acc s).map (fun p => p.id) = acc.map (fun p => p.id) := by
  induction acc with
  | nil => simp at h
  | cons e rest ih =>
    by_cases he : e.id = s.id
    · rw [mapSet, if_pos he]
      simp [he]
    · rw [mapSet, if_neg he]
      have : s.id ∈ rest.map (fun p => p.id) := by
        rcases List.mem_map.1 h with ⟨p, hp, hpid⟩
        rcases List.mem_cons.1 hp with rfl | hp
        · exact absurd hpid he
        · exact List.mem_map.2 ⟨p, hp, hpid⟩
      simp [ih this]

lemma mem_mapSet_nodup {acc : List StreamPacket} {s a : StreamPacket}
    (hnd : (acc.map (fun p => p.id)).Nodup) (h : a ∈ mapSet acc s) :
    a = s ∨ (a ∈ acc ∧ a.id ≠ s.id) := by
  induction acc with
  | nil =>
    simp only [mapSet, List.mem_singleton] at h
    exact Or.inl h
  | cons e rest ih =>
    rw [List.map_cons, List.nodup_cons] at hnd
    by_cases he : e.id = s.id
    · rw [mapSet, if_pos he] at h
      rcases List.mem_cons.1 h with h | h
      · exact Or.inl h
      · refine Or.inr ⟨List.mem_cons_of_mem _ h, ?_⟩
        intro hid
        exact hnd.1 (he ▸ hid ▸ List.mem_map.2 ⟨a, h, rfl⟩)
    · rw [mapSet, if_neg he] at h
      rcases List.mem_cons.1 h with h | h
      · subst h
        exact Or.inr ⟨List.mem_cons_self _ _, he⟩
      · rcases ih hnd.2 h with h | h
        · exact Or.inl h
        · exact Or.inr ⟨List.mem_cons_of_mem _ h.1, h.2⟩

/-- A list whose images under `f` are distinct has at most one element per
image. -/
lemma nodup_map_unique {α β : Type _} {f : α → β} {l : List α}
    (hnd : (l.map f).Nodup) {a b : α} (ha : a ∈ l) (hb : b ∈ l)
    (hf : f a = f b) : a = b := by
  induction l with
  | nil => cases ha
  | cons x t ih =>
    rw [List.map_cons, List.nodup_cons] at hnd
    rcases List.mem_cons.1 ha with ha1 | ha1
    · rcases List.mem_cons.1 hb with hb1 | hb1
      · exact ha1.trans hb1.symm
      · have hx : f x = f b := by rw [← ha1, hf]
        exact absurd (List.mem_map.2 ⟨b, hb1, hx.symm⟩) hnd.1
    · rcases List.mem_cons.1 hb with hb1 | hb1
      · have hx : f a = f x := by rw [hf, hb1]
        exact absurd (List.mem_map.2 ⟨a, ha1, hx⟩) hnd.1
      · exact ih hnd.2 ha1 hb1

/-! ### `dedupStep` -/

lemma find?_id_eq_none {acc : List StreamPacket} {s : StreamPacket} :
    acc.find? (fun e => e.id == s.id) = none ↔ s.id ∉ acc.map (fun p => p.id) := by
  rw [List.find?_eq_none]
  constructor
  · intro h hmem
    rcases List.mem_map.1 hmem with ⟨p, hp, hpid⟩
    exact h p hp (by simp [hpid])
  · intro h p hp hbeq
    exact h (List.mem_map.2 ⟨p, hp, by simpa using hbeq⟩)

lemma find?_id_eq_some {acc : List StreamPacket} {s ex : StreamPacket}
    (h : acc.find? (fun e => e.id == s.id) = some ex) :
    ex ∈ acc ∧ ex.id = s.id :=
  ⟨List.mem_of_find?_eq_some h, by simpa using List.find?_some h⟩

lemma mem_dedupStep {acc : List StreamPacket} {s a : StreamPacket}
    (h : a ∈ dedupStep acc s) : a = s ∨ a ∈ acc := by
  unfold dedupStep at h
  split at h
  · rcases List.mem_append.1 h with h | h
    · exact Or.inr h
    · exact Or.inl (by simpa using h)
  · split at h
    · exact mem_mapSet h
    · exact Or.inr h

lemma dedupStep_map_id {acc : List StreamPacket} {s : StreamPacket} :
    (dedupStep acc s).map (fun p => p.id) =
      if s.id ∈ acc.map (fun p => p.id) then acc.map (fun p => p.id)
      else acc.map (fun p => p.id) ++ [s.id] := by
  rcases hf : acc.find? (fun e => e.id == s.id) with _ | ex
  · have hd : dedupStep acc s = acc ++ [s] := by unfold dedupStep; rw [hf]
    rw [hd, if_neg (find?_id_eq_none.1 hf)]
    simp
  · obtain ⟨hmem, hid⟩ := find?_id_eq_some hf
    have hin : s.id ∈ acc.map (fun p => p.id) := hid ▸ List.mem_map.2 ⟨ex, hmem, rfl⟩
    have hd : dedupStep acc s =
        if statusOrder ex.status < statusOrder s.status then mapSet acc s else acc := by
      unfold dedupStep; rw [hf]
    rw [hd, if_pos hin]
    split
    · exact mapSet_map_id_of_mem hin
    · rfl

lemma dedupStep_nodup {acc : List StreamPacket} {s : StreamPacket}
    (hnd : (acc.map (fun p => p.id)).Nodup) :
    ((dedupStep acc s).map (fun p => p.id)).Nodup := by
  rw [dedupStep_map_id]
  split
  · exact hnd
  · rename_i hnotin
    rw [List.nodup_append]
    refine ⟨hnd, List.nodup_singleton _, ?_⟩
    intro y hy hy'
    exact hnotin (List.mem_singleton.1 hy' ▸ hy)

lemma mem_map_id_dedupStep {acc : List StreamPacket} {s : StreamPacket} {x : String} :
    x ∈ (dedupStep acc s).map (fun p => p.id) ↔
      x ∈ acc.map (fun p => p.id) ∨ x = s.id := by
  rw [dedupStep_map_id]
  split
  · rename_i hin
    constructor
    · exact Or.inl
    · rintro (h | rfl)
      · exact h
      · exact hin
  · simp

/-! ### The fold invariant of `deduplicateStreams` -/

/-- Invariant of the `deduplicateStreams` loop: relative to the packets
`seen` so far, the accumulator represents every seen id, draws its entries
from the seen packets, holds a status-maximal packet per id, and has distinct
ids. -/
lemma dedup_fold_master (l : List StreamPacket) :
    ∀ (acc seen : List StreamPacket),
    (∀ r ∈ seen, r.id ∈ acc.map (fun p => p.id)) →
    (∀ k ∈ acc, k ∈ seen) →
    (∀ k ∈ acc, ∀ r ∈ seen, r.id = k.id → statusOrder r.status ≤ statusOrder k.status) →
    ((acc.map (fun p => p.id)).Nodup) →
    (∀ r ∈ seen ++ l, r.id ∈ (l.foldl dedupStep acc).map (fun p => p.id))
    ∧ (∀ k ∈ l.foldl dedupStep acc, k ∈ seen ++ l)
    ∧ (∀ k ∈ l.foldl dedupStep acc, ∀ r ∈ seen ++ l, r.id = k.id →
        statusOrder r.status ≤ statusOrder k.status)
    ∧ ((l.foldl dedupStep acc).map (fun p => p.id)).Nodup := by
  induction l with
  | nil =>
    intro acc seen h1 h2 h3 h4
    refine ⟨?_, ?_, ?_, h4⟩
    · simpa using h1
    · simpa using h2
    · simpa using h3
  | cons s rest ih =>
    intro acc seen h1 h2 h3 h4
    have key := ih (dedupStep acc s) (seen ++ [s]) ?_ ?_ ?_ (dedupStep_nodup h4)
    · have hperm : seen ++ s :: rest = (seen ++ [s]) ++ rest := by simp
      rw [List.foldl_cons, hperm]
      exact key
    · intro r hr
      rw [mem_map_id_dedupStep]
      rcases List.mem_append.1 hr with hr | hr
      · exact Or.inl (h1 r hr)
      · rcases List.mem_singleton.1 hr with rfl
        exact Or.inr rfl
    · intro k hk
      rcases mem_dedupStep hk with rfl | hk
      · exact List.mem_append.2 (Or.inr (List.mem_singleton.2 rfl))
      · exact List.mem_append.2 (Or.inl (h2 k hk))
    · intro k hk r hr hid
      -- case on how the step treated `s`
      rcases hf : acc.find? (fun e => e.id == s.id) with _ | ex
      · -- id unseen in acc: step appends `s`
        have hd : dedupStep acc s = acc ++ [s] := by unfold dedupStep; rw [hf]
        have hnotin := find?_id_eq_none.1 hf
        rw [hd] at hk
        rcases List.mem_append.1 hk with hk1 | hk1
        · rcases List.mem_append.1 hr with hr1 | hr1
          · exact h3 k hk1 r hr1 hid
          · -- r = s but then s.id would be an id of acc
            have hrs : r = s := List.mem_singleton.1 hr1
            refine absurd ?_ hnotin
            rw [← hrs, hid]
            exact List.mem_map.2 ⟨k, hk1, rfl⟩
        · have hks : k = s := List.mem_singleton.1 hk1
          rcases List.mem_append.1 hr with hr1 | hr1
          · refine absurd ?_ hnotin
            rw [← hks, ← hid]
            exact h1 r hr1
          · have hrs : r = s := List.mem_singleton.1 hr1
            rw [hrs, hks]
      · obtain ⟨hexmem, hexid⟩ := find?_id_eq_some hf
        have hd : dedupStep acc s =
            if statusOrder ex.status < statusOrder s.status then mapSet acc s else acc := by
          unfold dedupStep; rw [hf]
        rw [hd] at hk
        by_cases hlt : statusOrder ex.status < statusOrder s.status
        · rw [if_pos hlt] at hk
          rcases mem_mapSet_nodup h4 hk with hks | hc
          · -- k is the freshly substituted packet s
            rcases List.mem_append.1 hr with hr1 | hr1
            · have hrid : r.id = ex.id := by rw [hid, hks, ← hexid]
              calc statusOrder r.status ≤ statusOrder ex.status := h3 ex hexmem r hr1 hrid
                _ ≤ statusOrder s.status := le_of_lt hlt
                _ = statusOrder k.status := by rw [hks]
            · have hrs : r = s := List.mem_singleton.1 hr1
              rw [hrs, hks]
          · rcases List.mem_append.1 hr with hr1 | hr1
            · exact h3 k hc.1 r hr1 hid
            · have hrs : r = s := List.mem_singleton.1 hr1
              exact absurd (by rw [← hrs, ← hid]) hc.2
        · rw [if_neg hlt] at hk
          rcases List.mem_append.1 hr with hr1 | hr1
          · exact h3 k hk r hr1 hid
          · have hrs : r = s := List.mem_singleton.1 hr1
            have hkex : k = ex := by
              refine nodup_map_unique h4 hk hexmem ?_
              rw [hexid, ← hrs, hid]
            rw [hrs, hkex]
            exact le_of_not_lt hlt

/-- Every element of the deduplicated output came from the input. -/
lemma mem_of_mem_dedup {l : List StreamPacket} {k : StreamPacket}
    (h : k ∈ deduplicateStreams l) : k ∈ l := by
  have key := dedup_fold_master l [] [] (by simp) (by simp) (by simp) (by simp)
  simpa using key.2.1 k h

/-- The deduplicated output has pairwise distinct ids. -/
lemma dedup_nodup_ids (l : List StreamPacket) :
    ((deduplicateStreams l).map (fun p => p.id)).Nodup := by
  have key := dedup_fold_master l [] [] (by simp) (by simp) (by simp) (by simp)
  exact key.2.2.2

/-- Deduplication preserves the id set. -/
lemma mem_map_id_dedup {l : List StreamPacket} {x : String} :
    x ∈ (deduplicateStreams l).map (fun p => p.id) ↔ x ∈ l.map (fun p => p.id) := by
  have key := dedup_fold_master l [] [] (by simp) (by simp) (by simp) (by simp)
  constructor
  · intro h
    rcases List.mem_map.1 h with ⟨p, hp, hpid⟩
    exact hpid ▸ List.mem_map.2 ⟨p, mem_of_mem_dedup hp, rfl⟩
  · intro h
    rcases List.mem_map.1 h with ⟨p, hp, hpid⟩
    exact hpid ▸ key.1 p (by simpa using hp)

/-- The packet kept for an id is status-maximal among the input packets with
that id. -/
lemma dedup_status_max {l : List StreamPacket} {k r : StreamPacket}
    (hk : k ∈ deduplicateStreams l) (hr : r ∈ l) (hid : r.id = k.id) :
    statusOrder r.status ≤ statusOrder k.status := by
  have key := dedup_fold_master l [] [] (by simp) (by simp) (by simp) (by simp)
  exact key.2.2.1 k hk r (by simpa using hr) hid

/-! ### Deduplication is the identity on collections with distinct ids -/

lemma foldl_dedupStep_disjoint (l : List StreamPacket) :
    ∀ acc : List StreamPacket,
    (∀ x ∈ l.map (fun p => p.id), x ∉ acc.map (fun p => p.id)) →
    ((l.map (fun p => p.id)).Nodup) →
    l.foldl dedupStep acc = acc ++ l := by
  induction l with
  | nil => intro acc _ _; simp
  | cons s rest ih =>
    intro acc hdisj hnd
    rw [List.map_cons, List.nodup_cons] at hnd
    have hnone : acc.find? (fun e => e.id == s.id) = none :=
      find?_id_eq_none.2 (hdisj s.id (by simp))
    have hd : dedupStep acc s = acc ++ [s] := by unfold dedupStep; rw [hnone]
    rw [List.foldl_cons, hd, ih (acc ++ [s]) ?_ hnd.2]
    · simp
    · intro x hx
      rw [List.map_append, List.mem_append]
      rintro (hmem | hmem)
      · exact hdisj x (List.mem_cons_of_mem _ hx) hmem
      · rcases List.mem_singleton.1 (by simpa using hmem) with rfl
        exact hnd.1 hx

/-- On a collection whose ids are already distinct, `deduplicateStreams`
returns the collection itself, unchanged and in order. -/
lemma dedup_of_nodup {l : List StreamPacket}
    (h : (l.map (fun p => p.id)).Nodup) : deduplicateStreams l = l := by
  have := foldl_dedupStep_disjoint l [] (by simp) h
  simpa [deduplicateStreams] using this

/-! ### Length bounds -/

lemma length_mapSet_le (acc : List StreamPacket) (s : StreamPacket) :
    (mapSet acc s).length ≤ acc.length + 1 := by
  induction acc with
  | nil => simp [mapSet]
  | cons e rest ih =>
    by_cases he : e.id = s.id
    · rw [mapSet, if_pos he]
      simp
    · rw [mapSet, if_neg he]
      simpa using Nat.succ_le_succ ih

lemma length_dedupStep_le (acc : List StreamPacket) (s : StreamPacket) :
    (dedupStep acc s).length ≤ acc.length + 1 := by
  unfold dedupStep
  split
  · simp
  · split
    · exact length_mapSet_le acc s
    · exact Nat.le_succ _

lemma length_foldl_dedupStep_le (l : List StreamPacket) :
    ∀ acc : List StreamPacket,
    (l.foldl dedupStep acc).length ≤ acc.length + l.length := by
  induction l with
  | nil => intro acc; simp
  | cons s rest ih =>
    intro acc
    calc (rest.foldl dedupStep (dedupStep acc s)).length
        ≤ (dedupStep acc s).length + rest.length := ih _
      _ ≤ (acc.length + 1) + rest.length :=
          Nat.add_le_add_right (length_dedupStep_le acc s) _
      _ = acc.length + (s :: rest).length := by simp [Nat.add_assoc, Nat.add_comm 1]

lemma length_dedup_le (l : List StreamPacket) :
    (deduplicateStreams l).length ≤ l.length := by
  simpa [deduplicateStreams] using length_foldl_dedupStep_le l []

/-! ### Tick-level preservation lemmas -/

/-- Well-formed collection: pairwise distinct packet ids. -/
def WfStreams (l : List StreamPacket) : Prop :=
  (l.map (fun p => p.id)).Nodup

lemma stepTick_ingest (l newStreams : List StreamPacket) :
    stepTick l (.ingest newStreams) = ingestMerge newStreams l := rfl

lemma stepTick_progress (l : List StreamPacket) (now : Nat) :
    stepTick l (.progress now) = progressTick now l := rfl

lemma ingestMerge_eq (newStreams prev : List StreamPacket) :
    ingestMerge newStreams prev =
      if 0 < (newStreams.filter
          (fun s => decide (s.id ∉ prev.map (fun p => p.id)))).length then
        (deduplicateStreams
          (newStreams.filter (fun s => decide (s.id ∉ prev.map (fun p => p.id)))
            ++ prev)).take MAX_STREAMS
      else prev := rfl

lemma progressTick_eq (now : Nat) (prev : List StreamPacket) :
    progressTick now prev =
      deduplicateStreams
        (if MAX_STREAMS < (prev.map (progressPacket now)).length then
          match (finalizedIndices (prev.map (progressPacket now))).getLast? with
          | some i => (prev.map (progressPacket now)).eraseIdx i
          | none => (prev.map (progressPacket now)).dropLast
        else prev.map (progressPacket now)) := rfl

lemma progressTick_subset_updated {now : Nat} {prev : List StreamPacket}
    {q : StreamPacket} (h : q ∈ progressTick now prev) :
    q ∈ prev.map (progressPacket now) := by
  rw [progressTick_eq] at h
  have h1 := mem_of_mem_dedup h
  split at h1
  · split at h1
    · exact (List.eraseIdx_sublist _ _).subset h1
    · exact (List.dropLast_sublist _).subset h1
  · exact h1

lemma map_id_map_progress (now : Nat) (l : List StreamPacket) :
    (l.map (progressPacket now)).map (fun p => p.id) = l.map (fun p => p.id) := by
  rw [List.map_map]
  exact List.map_congr_left fun p _ => progressPacket_id now p

lemma stepTick_length_le {l : List StreamPacket} (t : Tick)
    (h : l.length ≤ MAX_STREAMS) : (stepTick l t).length ≤ MAX_STREAMS := by
  cases t with
  | ingest newStreams =>
    rw [stepTick_ingest, ingestMerge_eq]
    split
    · rw [List.length_take]
      exact min_le_left _ _
    · exact h
  | progress now =>
    rw [stepTick_progress, progressTick_eq, if_neg (by simpa using h)]
    calc (deduplicateStreams (l.map (progressPacket now))).length
        ≤ (l.map (progressPacket now)).length := length_dedup_le _
      _ = l.length := List.length_map _ _
      _ ≤ MAX_STREAMS := h

lemma stepTick_wf {l : List StreamPacket} (t : Tick) (h : WfStreams l) :
    WfStreams (stepTick l t) := by
  cases t with
  | ingest newStreams =>
    rw [stepTick_ingest, ingestMerge_eq]
    split
    · have hnd := dedup_nodup_ids
        (newStreams.filter (fun s => decide (s.id ∉ l.map (fun p => p.id))) ++ l)
      unfold WfStreams
      rw [List.map_take]
      exact List.Nodup.sublist (List.take_sublist _ _) hnd
    · exact h
  | progress now =>
    rw [stepTick_progress, progressTick_eq]
    exact dedup_nodup_ids _

lemma statusAt_eq_some {x : String} {l : List StreamPacket} {u : StreamStatus}
    (h : statusAt x l = some u) : ∃ p ∈ l, p.id = x ∧ p.status = u := by
  unfold statusAt at h
  rcases Option.map_eq_some'.1 h with ⟨p, hp, hstat⟩
  exact ⟨p, List.mem_of_find?_eq_some hp, by simpa using List.find?_some hp, hstat⟩

/-- One tick never decreases the status of a packet that stays live, and a
finalized live packet stays finalized. -/
lemma stepTick_statusAt_mono {l : List StreamPacket} (t : Tick) {x : String}
    {u v : StreamStatus} (hwf : WfStreams l)
    (hu : statusAt x l = some u) (hv : statusAt x (stepTick l t) = some v) :
    statusOrder u ≤ statusOrder v ∧ (u = .finalized → v = .finalized) := by
  obtain ⟨p, hp, hpid, hpst⟩ := statusAt_eq_some hu
  obtain ⟨q, hq, hqid, hqst⟩ := statusAt_eq_some hv
  cases t with
  | ingest newStreams =>
    have hql : q ∈ l := by
      rw [stepTick_ingest, ingestMerge_eq] at hq
      split at hq
      · have hq1 := (List.take_sublist _ _).subset hq
        have hq2 := mem_of_mem_dedup hq1
        rcases List.mem_append.1 hq2 with hq3 | hq3
        · -- q came from the filtered new packets, whose ids avoid l: impossible
          have hq4 := (List.mem_filter.1 hq3).2
          have hq5 : q.id ∉ l.map (fun s => s.id) := of_decide_eq_true hq4
          exact absurd (List.mem_map.2 ⟨p, hp, hpid.trans hqid.symm⟩) hq5
        · exact hq3
      · exact hq
    have : p = q := nodup_map_unique hwf hp hql (hpid.trans hqid.symm)
    rw [← hpst, ← hqst, ← this]
    exact ⟨le_refl _, fun h => h⟩
  | progress now =>
    have hq1 : q ∈ l.map (progressPacket now) := progressTick_subset_updated hq
    rcases List.mem_map.1 hq1 with ⟨r, hr, hrq⟩
    have hrid : r.id = p.id := by
      rw [hpid, ← hqid, ← hrq]
      exact (progressPacket_id now r).symm
    have hrp : r = p := nodup_map_unique hwf hr hp hrid
    subst hrp
    constructor
    · rw [← hpst, ← hqst, ← hrq]
      exact progressPacket_status_mono now r
    · intro hfin
      rw [← hqst, ← hrq]
      exact progressPacket_finalized now r (hpst.trans hfin)

/-- Iterated form: every state reached from a well-formed state is
well-formed. -/
lemma scanl_stepTick_wf {l : List StreamPacket} (hwf : WfStreams l) :
    ∀ ts : List Tick, ∀ s ∈ List.scanl stepTick l ts, WfStreams s := by
  intro ts
  induction ts generalizing l with
  | nil =>
    intro s hs
    rw [List.scanl_nil, List.mem_singleton] at hs
    exact hs ▸ hwf
  | cons t ts ih =>
    intro s hs
    rw [List.scanl_cons] at hs
    rcases List.mem_append.1 hs with hs | hs
    · rw [List.mem_singleton] at hs
      exact hs ▸ hwf
    · exact ih (stepTick_wf t hwf) s hs

/-! ### The status trace along a sequence of ticks -/

lemma getLast?_mem {α : Type _} {l : List α} {a : α} (h : l.getLast? = some a) :
    a ∈ l := by
  rcases List.mem_getLast?_eq_getLast (l := l) (x := a) h with ⟨hne, ha⟩
  rw [ha]
  exact List.getLast_mem hne

lemma scanl_stepTick_head (l : List StreamPacket) (ts : List Tick) :
    (List.scanl stepTick l ts).head? = some l := by
  cases ts <;> simp [List.scanl_nil, List.scanl_cons]

lemma chain_statusAt (x : String) :
    ∀ (ts : List Tick) (l : List StreamPacket), WfStreams l →
    List.Chain' (fun a b => ∀ u v, a = some u → b = some v →
        statusOrder u ≤ statusOrder v ∧ (u = .finalized → v = .finalized))
      ((List.scanl stepTick l ts).map (statusAt x)) := by
  intro ts
  induction ts with
  | nil =>
    intro l _
    simp [List.scanl_nil]
  | cons t ts ih =>
    intro l hwf
    rw [List.scanl_cons, List.singleton_append, List.map_cons]
    rw [List.chain'_cons']
    refine ⟨?_, ih (stepTick l t) (stepTick_wf t hwf)⟩
    intro y hy u v hu hv
    rw [List.head?_map, scanl_stepTick_head] at hy
    simp only [Option.map_some', Option.mem_def, Option.some.injEq] at hy
    rw [← hy] at hv
    exact stepTick_statusAt_mono t hwf hu hv

/-! ### `finalizedIndices`: characterization and ordering -/

lemma mem_finalizedIndices {l : List StreamPacket} {i : Nat} :
    i ∈ finalizedIndices l ↔ ∃ p, l[i]? = some p ∧ p.status = .finalized := by
  unfold finalizedIndices
  constructor
  · intro h
    rcases List.mem_map.1 h with ⟨pair, hmem, hfst⟩
    rcases List.mem_filter.1 hmem with ⟨henum, hpred⟩
    have hst : pair.2.status = .finalized := of_decide_eq_true hpred
    refine ⟨pair.2, ?_, hst⟩
    have hmk : (pair.1, pair.2) ∈ l.enum := by simpa using henum
    rw [← hfst]
    exact List.mk_mem_enum_iff_getElem?.1 hmk
  · rintro ⟨p, hget, hst⟩
    refine List.mem_map.2 ⟨(i, p), ?_, rfl⟩
    exact List.mem_filter.2 ⟨List.mk_mem_enum_iff_getElem?.2 hget, decide_eq_true hst⟩

lemma finalizedIndices_pairwise (l : List StreamPacket) :
    (finalizedIndices l).Pairwise (· < ·) := by
  unfold finalizedIndices
  have h1 : ((l.enum.filter (fun p => decide (p.2.status = .finalized))).map
      Prod.fst).Sublist (l.enum.map Prod.fst) :=
    (List.filter_sublist _).map _
  rw [List.enum_map_fst] at h1
  have h2 : ((l.enum.filter (fun p => decide (p.2.status = .finalized))).map
      Prod.fst).Pairwise (· < ·) :=
    List.Pairwise.sublist h1 (List.pairwise_lt_range _)
  simpa using h2

lemma pairwise_lt_getLast_max {xs : List Nat} (hp : xs.Pairwise (· < ·)) {i : Nat}
    (h : xs.getLast? = some i) : ∀ j ∈ xs, j ≤ i := by
  induction xs with
  | nil => simp at h
  | cons a t ih =>
    cases t with
    | nil =>
      simp only [List.getLast?_singleton, Option.some.injEq] at h
      intro j hj
      rcases List.mem_singleton.1 hj with rfl
      exact le_of_eq h
    | cons b t2 =>
      rw [List.getLast?_cons_cons] at h
      rw [List.pairwise_cons] at hp
      intro j hj
      rcases List.mem_cons.1 hj with rfl | hj2
      · exact le_of_lt (hp.1 i (getLast?_mem h))
      · exact ih hp.2 h j hj2

/-! ### Two-element deduplication -/

lemma dedup_pair {p q : StreamPacket} (h : p.id = q.id) :
    deduplicateStreams [p, q] =
      if statusOrder p.status < statusOrder q.status then [q] else [p] := by
  unfold deduplicateStreams
  rw [List.foldl_cons, List.foldl_cons, List.foldl_nil]
  have h1 : dedupStep [] p = [p] := rfl
  rw [h1]
  have hfind : [p].find? (fun e => e.id == q.id) = some p :=
    List.find?_cons_of_pos _ (by simpa using h)
  have h2 : dedupStep [p] q =
      if statusOrder p.status < statusOrder q.status then mapSet [p] q else [p] := by
    unfold dedupStep
    rw [hfind]
  rw [h2]
  split
  · simp [mapSet, h]
  · rfl

/-! ### Claim theorems -/

/-- C1 (capacity invariant): starting from the empty collection, after every
ingestion tick (merge of new packets followed by truncation) and after every
progression tick (stage advancement followed by eviction and deduplication),
the packet collection holds at most `MAX_STREAMS` (100) packets. -/
theorem capacity_invariant (ts : List Tick) :
    (ts.foldl stepTick []).length ≤ 100 := by
  have key : ∀ l : List StreamPacket, l.length ≤ MAX_STREAMS →
      (ts.foldl stepTick l).length ≤ MAX_STREAMS := by
    induction ts with
    | nil =>
      intro l h
      simpa using h
    | cons t ts ih =>
      intro l h
      rw [List.foldl_cons]
      exact ih _ (stepTick_length_le t h)
  exact key [] (by simp [MAX_STREAMS])

/-- C2 (monotonic status): along any sequence of ingestion and progression
ticks starting from the empty collection, whenever the packet with a given id
is live in two consecutive states, its status order never decreases, and once
finalized it stays finalized. -/
theorem monotonic_status (ts : List Tick) (x : String) :
    List.Chain' (fun a b => ∀ u v, a = some u → b = some v →
        statusOrder u ≤ statusOrder v ∧
          (u = StreamStatus.finalized → v = StreamStatus.finalized))
      ((List.scanl stepTick [] ts).map (statusAt x)) :=
  chain_statusAt x ts [] (by simp [WfStreams])

/-- Witness for C2 at a concrete tick sequence. -/
theorem monotonic_status_witness :
    List.Chain' (fun a b => ∀ u v, a = some u → b = some v →
        statusOrder u ≤ statusOrder v ∧
          (u = StreamStatus.finalized → v = StreamStatus.finalized))
      ((List.scanl stepTick []
          [Tick.ingest [basePacket 0 .streamed], Tick.progress 400]).map
        (statusAt "0")) :=
  monotonic_status [Tick.ingest [basePacket 0 .streamed], Tick.progress 400] "0"

/-- C3 (deduplication/merge correctness): empty input yields empty output;
the output has exactly one packet per id, drawn from the input, with the
id set preserved; every retained packet is status-maximal among input
packets sharing its id; for a two-packet input with a repeated id, the one
with the strictly greater status order is kept, with the first-seen kept on
ties; in particular Streamed vs Consolidated keeps the Consolidated packet in
either input order. -/
theorem dedup_merge_correct :
    deduplicateStreams [] = []
    ∧ (∀ l : List StreamPacket, ((deduplicateStreams l).map (fun p => p.id)).Nodup)
    ∧ (∀ (l : List StreamPacket) (x : String),
        x ∈ (deduplicateStreams l).map (fun p => p.id) ↔ x ∈ l.map (fun p => p.id))
    ∧ (∀ l : List StreamPacket, ∀ k ∈ deduplicateStreams l,
        k ∈ l ∧ ∀ r ∈ l, r.id = k.id → statusOrder r.status ≤ statusOrder k.status)
    ∧ (∀ p q : StreamPacket, p.id = q.id →
        deduplicateStreams [p, q] =
          if statusOrder p.status < statusOrder q.status then [q] else [p])
    ∧ (∀ p q : StreamPacket, p.id = q.id → p.status = .streamed →
        q.status = .consolidated →
        deduplicateStreams [p, q] = [q] ∧ deduplicateStreams [q, p] = [q]) := by
  refine ⟨rfl, dedup_nodup_ids, ?_, ?_, ?_, ?_⟩
  · intro l x
    exact mem_map_id_dedup.symm.symm
  · intro l k hk
    exact ⟨mem_of_mem_dedup hk, fun r hr hid => dedup_status_max hk hr hid⟩
  · intro p q h
    exact dedup_pair h
  · intro p q h hp hq
    constructor
    · rw [dedup_pair h, if_pos (by rw [hp, hq]; decide)]
    · rw [dedup_pair h.symm, if_neg (by rw [hp, hq]; decide)]

/-- Witness for C3: a Streamed/Consolidated pair with a shared id keeps the
Consolidated packet in both input orders. -/
theorem dedup_merge_correct_witness :
    deduplicateStreams [basePacket 7 .streamed,
        { basePacket 7 .consolidated with timestamp := 5 }]
      = [{ basePacket 7 .consolidated with timestamp := 5 }]
    ∧ deduplicateStreams [{ basePacket 7 .consolidated with timestamp := 5 },
        basePacket 7 .streamed]
      = [{ basePacket 7 .consolidated with timestamp := 5 }] :=
  dedup_merge_correct.2.2.2.2.2 (basePacket 7 .streamed)
    { basePacket 7 .consolidated with timestamp := 5 } rfl rfl rfl

/-- C9 (dedup idempotence): on a collection whose packets already have
pairwise distinct ids, deduplication returns the very same collection — no
ids removed, no packet changed, order preserved. -/
theorem dedup_idempotent (l : List StreamPacket)
    (h : (l.map (fun p => p.id)).Nodup) :
    deduplicateStreams l = l :=
  dedup_of_nodup h

/-- Witness for C9 at a concrete already-deduplicated collection. -/
theorem dedup_idempotent_witness :
    deduplicateStreams [basePacket 0 .streamed, basePacket 1 .finalized]
      = [basePacket 0 .streamed, basePacket 1 .finalized] :=
  dedup_idempotent _ (by decide)

/-- C10 (no-op ingestion frame property): when every incoming packet's id is
already present in the collection, the ingestion merge returns the previous
collection exactly — same packets, same order, with neither deduplication nor
truncation applied. -/
theorem ingest_noop_when_ids_present (newStreams prev : List StreamPacket)
    (h : ∀ s ∈ newStreams, s.id ∈ prev.map (fun p => p.id)) :
    ingestMerge newStreams prev = prev := by
  rw [ingestMerge_eq]
  have hempty :
      newStreams.filter (fun s => decide (s.id ∉ prev.map (fun p => p.id))) = [] := by
    rw [List.filter_eq_nil_iff]
    intro a ha
    simpa using h a ha
  rw [hempty]
  simp

/-- Witness for C10: an incoming packet whose id is already live leaves the
collection untouched. -/
theorem ingest_noop_when_ids_present_witness :
    ingestMerge [basePacket 0 .consolidated]
        [basePacket 0 .streamed, basePacket 2 .indexed]
      = [basePacket 0 .streamed, basePacket 2 .indexed] :=
  ingest_noop_when_ids_present _ _ (by decide)

/-- A non-finalized packet whose `lastStageTime` is 0: JS treats the 0
timestamp as falsy, so the source's progression guard skips it. -/
def zeroTimePacket : StreamPacket := { basePacket 3 .streamed with lastStageTime := 0 }

/-- C4 counterexample: a Streamed packet with `lastStageTime = 0` satisfies
the claim's progression condition (`now - lastStageTime ≥ STAGE_DURATION`,
status not Finalized) at `now = 300`, yet one progression leaves it entirely
unchanged instead of advancing it to Indexed — the source's truthiness guard
`stream.lastStageTime &&` rejects the 0 timestamp. -/
theorem progression_postcondition_cex :
    zeroTimePacket.status ≠ .finalized
    ∧ STAGE_DURATION ≤ 300 - zeroTimePacket.lastStageTime
    ∧ progressPacket 300 zeroTimePacket = zeroTimePacket
    ∧ (progressPacket 300 zeroTimePacket).status ≠ getNextStatus zeroTimePacket.status := by
  decide

lemma progressPacket_finalized_eq (now : Nat) {s : StreamPacket}
    (h : s.status = .finalized) :
    progressPacket now s = { s with confirmations := 3 } := by
  unfold progressPacket
  rw [if_pos h]

lemma progress_finalized_fix {q : StreamPacket} (h : q.status = .finalized)
    (hc : q.confirmations = 3) (nows : List Nat) :
    (nows.foldl (fun p n => progressPacket n p) q).status = .finalized
    ∧ (nows.foldl (fun p n => progressPacket n p) q).confirmations = 3 := by
  induction nows generalizing q with
  | nil => exact ⟨h, hc⟩
  | cons n ns ih =>
    rw [List.foldl_cons]
    refine ih ?_ ?_
    · rw [progressPacket_finalized_eq n h]
      exact h
    · rw [progressPacket_finalized_eq n h]

/-- C4 amended (progression per-packet postcondition): one progression tick
at time `now` transforms each packet independently — a Finalized packet keeps
its status and `lastStageTime` and has `confirmations` pinned to 3, and stays
that way under any further progressions; a non-Finalized packet with a
*nonzero* `lastStageTime` and `now - lastStageTime ≥ STAGE_DURATION` moves to
`getNextStatus`, stamps `lastStageTime := now` and increments
`confirmations`; otherwise (including the `lastStageTime = 0` case the
source's truthiness guard rejects) the packet is unchanged. -/
theorem progression_postcondition (now : Nat) (s : StreamPacket) :
    (s.status = .finalized →
      progressPacket now s = { s with confirmations := 3 }
      ∧ ∀ nows : List Nat,
          (nows.foldl (fun p n => progressPacket n p) (progressPacket now s)).status
            = s.status
          ∧ (nows.foldl (fun p n => progressPacket n p)
              (progressPacket now s)).confirmations = 3)
    ∧ (s.status ≠ .finalized → s.lastStageTime ≠ 0 →
        STAGE_DURATION ≤ now - s.lastStageTime →
        progressPacket now s =
          { s with
            status := getNextStatus s.status, lastStageTime := now,
            confirmations := s.confirmations + 1 })
    ∧ (s.status ≠ .finalized →
        (s.lastStageTime = 0 ∨ now - s.lastStageTime < STAGE_DURATION) →
        progressPacket now s = s) := by
  refine ⟨?_, ?_, ?_⟩
  · intro h
    refine ⟨progressPacket_finalized_eq now h, ?_⟩
    intro nows
    have hq := progress_finalized_fix (q := { s with confirmations := 3 })
      h rfl nows
    rw [progressPacket_finalized_eq now h]
    exact ⟨hq.1.trans h.symm, hq.2⟩
  · intro h1 h2 h3
    unfold progressPacket
    rw [if_neg h1, if_pos ⟨h2, h3⟩]
    dsimp only
    rw [if_pos (getNextStatus_ne s.status h1)]
  · intro h1 h2
    unfold progressPacket
    rw [if_neg h1, if_neg ?_]
    rintro ⟨ha, hb⟩
    rcases h2 with h2 | h2
    · exact ha h2
    · exact absurd hb (not_le.2 h2)

/-- Witness for C4: an Indexed packet past its stage duration advances to
Consolidated with a fresh stamp and one more confirmation, and a concrete
Finalized packet is a fixed point with confirmations pinned at 3. -/
theorem progression_postcondition_witness :
    progressPacket 400 (basePacket 5 .indexed) =
      { basePacket 5 .indexed with
        status := .consolidated, lastStageTime := 400, confirmations := 1 }
    ∧ progressPacket 400 (basePacket 6 .finalized) =
      { basePacket 6 .finalized with confirmations := 3 } :=
  ⟨(progression_postcondition 400 (basePacket 5 .indexed)).2.1
      (by decide) (by decide) (by decide),
    ((progression_postcondition 400 (basePacket 6 .finalized)).1 (by decide)).1⟩

/-- A newest-first collection of 101 packets, the two newest (indices 0 and
1) Finalized, none due for a stage advance at `now = 0`. -/
def st101 : List StreamPacket :=
  (List.range 101).map (fun i => basePacket i (if i < 2 then .finalized else .streamed))

set_option maxRecDepth 100000 in
/-- C5 counterexample: in a newest-first collection of 101 packets whose two
newest entries (indices 0 and 1) are Finalized, the progression tick evicts
the packet at index 1 — the *older* of the two Finalized packets — while the
most-recently-inserted Finalized packet (index 0) survives, contradicting the
claimed eviction of the most-recently-inserted Finalized packet. -/
theorem eviction_choice_cex :
    st101.length = 101
    ∧ st101.head? = some (basePacket 0 .finalized)
    ∧ st101[1]? = some (basePacket 1 .finalized)
    ∧ (basePacket 0 .finalized).status = .finalized
    ∧ (basePacket 1 .finalized).status = .finalized
    ∧ (progressTick 0 st101).length = 100
    ∧ basePacket 0 .finalized ∈ progressTick 0 st101
    ∧ basePacket 1 .finalized ∉ progressTick 0 st101 := by
  decide

/-- C5 amended (eviction choice): when a progression tick's stage-advance
leaves the collection above `MAX_STREAMS`, exactly one packet is evicted; if
any advanced packet is Finalized the evicted one is the Finalized packet at
the *greatest* index — the last Finalized packet in iteration order, i.e. the
oldest-inserted Finalized packet under the newest-first ordering — and if no
Finalized packet exists the last element is evicted. -/
theorem eviction_choice (now : Nat) (prev : List StreamPacket)
    (hwf : WfStreams prev) (hlen : MAX_STREAMS < prev.length) :
    (progressTick now prev).length + 1 = prev.length
    ∧ ((∀ p ∈ prev.map (progressPacket now), p.status ≠ .finalized) →
        progressTick now prev = (prev.map (progressPacket now)).dropLast)
    ∧ ((∃ p ∈ prev.map (progressPacket now), p.status = .finalized) →
        ((finalizedIndices (prev.map (progressPacket now))).getLast?).isSome)
    ∧ (∀ i, (finalizedIndices (prev.map (progressPacket now))).getLast? = some i →
        (∃ p, (prev.map (progressPacket now))[i]? = some p ∧ p.status = .finalized)
        ∧ (∀ j q, i < j → (prev.map (progressPacket now))[j]? = some q →
            q.status ≠ .finalized)
        ∧ progressTick now prev = (prev.map (progressPacket now)).eraseIdx i) := by
  have hwfu : WfStreams (prev.map (progressPacket now)) := by
    unfold WfStreams
    rw [map_id_map_progress]
    exact hwf
  have hlenu : MAX_STREAMS < (prev.map (progressPacket now)).length := by
    rw [List.length_map]
    exact hlen
  have herase : ∀ i : Nat,
      WfStreams ((prev.map (progressPacket now)).eraseIdx i) := fun i =>
    List.Nodup.sublist ((List.eraseIdx_sublist _ i).map _) hwfu
  have hdrop : WfStreams ((prev.map (progressPacket now)).dropLast) :=
    List.Nodup.sublist ((List.dropLast_sublist _).map _) hwfu
  refine ⟨?_, ?_, ?_, ?_⟩
  · -- exactly one packet is evicted
    rw [progressTick_eq, if_pos hlenu]
    rcases hl : (finalizedIndices (prev.map (progressPacket now))).getLast? with _ | i
    · rw [dedup_of_nodup hdrop, List.length_dropLast, List.length_map]
      omega
    · have hi := mem_finalizedIndices.1 (getLast?_mem hl)
      rcases hi with ⟨p, hget, _⟩
      have hilt : i < (prev.map (progressPacket now)).length :=
        (List.getElem?_eq_some.1 hget).1
      rw [dedup_of_nodup (herase i), List.length_eraseIdx, if_pos hilt,
        List.length_map]
      omega
  · -- no Finalized packet: the last element is popped
    intro hnone
    have hempty : finalizedIndices (prev.map (progressPacket now)) = [] := by
      rw [List.eq_nil_iff_forall_not_mem]
      intro i hi
      rcases mem_finalizedIndices.1 hi with ⟨p, hget, hst⟩
      exact hnone p (List.getElem?_mem hget) hst
    rw [progressTick_eq, if_pos hlenu, hempty]
    exact dedup_of_nodup hdrop
  · -- some Finalized packet exists: the eviction index is defined
    rintro ⟨p, hp, hst⟩
    rcases List.getElem?_of_mem hp with ⟨n, hn⟩
    have hnmem : n ∈ finalizedIndices (prev.map (progressPacket now)) :=
      mem_finalizedIndices.2 ⟨p, hn, hst⟩
    have hne : finalizedIndices (prev.map (progressPacket now)) ≠ [] := by
      intro hnil
      rw [hnil] at hnmem
      cases hnmem
    rcases hl : (finalizedIndices (prev.map (progressPacket now))).getLast? with _ | i
    · exact absurd (List.getLast?_eq_none_iff.1 hl) hne
    · rfl
  · -- the evicted index is the greatest Finalized index
    intro i hl
    refine ⟨mem_finalizedIndices.1 (getLast?_mem hl), ?_, ?_⟩
    · intro j q hij hget hst
      have hj : j ∈ finalizedIndices (prev.map (progressPacket now)) :=
        mem_finalizedIndices.2 ⟨q, hget, hst⟩
      have := pairwise_lt_getLast_max (finalizedIndices_pairwise _) hl j hj
      omega
    · rw [progressTick_eq, if_pos hlenu, hl]
      exact dedup_of_nodup (herase i)

set_option maxRecDepth 100000 in
/-- Witness for C5 at the concrete 101-packet state. -/
theorem eviction_choice_witness :
    (progressTick 0 st101).length + 1 = st101.length :=
  (eviction_choice 0 st101 (by unfold WfStreams; decide) (by decide)).1

/-- A collection of 105 packets with pairwise distinct ids, the 10 newest
Finalized, none due for a stage advance at `now = 0` — the state of spec
Scenario 4. -/
def st105 : List StreamPacket :=
  (List.range 105).map (fun i => basePacket i (if i < 10 then .finalized else .streamed))

set_option maxRecDepth 100000 in
/-- C6 counterexample: with 105 packets of which 10 are Finalized, one
progression tick removes a single packet, leaving 104 — not the claimed clamp
to 100. -/
theorem overflow_clamp_cex :
    st105.length = 105
    ∧ (st105.filter (fun s => decide (s.status = .finalized))).length = 10
    ∧ (progressTick 0 st105).length = 104
    ∧ (progressTick 0 st105).length ≠ 100 := by
  decide

set_option maxRecDepth 100000 in
/-- C6 amended (overflow, Scenario 4): with 105 packets of which 10 are
Finalized, the next progression tick removes exactly one Finalized packet,
leaving the collection at size 104 with 9 Finalized packets (the size-100
clamp is only enforced by ingestion-tick truncation; a progression tick
evicts a single packet per tick). -/
theorem overflow_clamp :
    st105.length = 105
    ∧ (st105.filter (fun s => decide (s.status = .finalized))).length = 10
    ∧ (progressTick 0 st105).length = 104
    ∧ ((progressTick 0 st105).filter
        (fun s => decide (s.status = .finalized))).length = 9 := by
  decide

/-- A healthy connection info for scenario states. -/
def connBase : ConnectionInfo :=
  { status := .connected, method := "http", error := none, lastBlockTime := none,
    networkName := "Somnia Testnet", rpcUrl := "https://rpc.example" }

/-- Engine state at tick N-1: one live packet, cursor at block 5, connected. -/
def engineSt : EngineState :=
  { streams := [basePacket 0 .indexed], conn := connBase, lastBlockNumber := 5 }

/-- The same engine after a failed fetch: status error, message captured,
packets and cursor untouched. -/
def engineErr : EngineState :=
  { streams := [basePacket 0 .indexed],
    conn := { connBase with status := .error, error := some "network down" },
    lastBlockNumber := 5 }

/-- A block with no transactions at height 5. -/
def emptyBlock : Block := { number := 5, hash := some "0xB", transactions := [] }

/-- C7 counterexample: after the fetch throws on tick N (packet collection
unchanged, status error with the captured message), a *successful* fetch on
tick N+1 that observes an unchanged chain head leaves the status at error —
it does not return to connected as claimed; recovery happens only when a
successful fetch sees a new head. -/
theorem error_recovery_cex :
    fetchAndProcessBlock (.error "network down") 1000 engineSt = engineErr
    ∧ (fetchAndProcessBlock (.ok (5, emptyBlock)) 2000 engineErr).conn.status
        = .error
    ∧ (fetchAndProcessBlock (.ok (5, emptyBlock)) 2000 engineErr).conn.status
        ≠ .connected := by
  decide

/-- C7 amended (error atomicity and recovery): a fetch failure on tick N
leaves the packet collection and cursor exactly as at tick N-1 and only
rewrites the connection info to status error with the captured message; a
subsequent successful fetch returns the status to connected provided it
initializes the cursor or observes a new chain head (with an unchanged head
the error status persists until a new block arrives). -/
theorem error_atomicity_recovery (st : EngineState) (msg : String) (now : Nat) :
    ((fetchAndProcessBlock (.error msg) now st).streams = st.streams
      ∧ (fetchAndProcessBlock (.error msg) now st).lastBlockNumber
          = st.lastBlockNumber
      ∧ (fetchAndProcessBlock (.error msg) now st).conn.status = .error
      ∧ (fetchAndProcessBlock (.error msg) now st).conn.error = some msg)
    ∧ (∀ (head : Nat) (blk : Block),
        st.lastBlockNumber = 0 ∨ st.lastBlockNumber < head →
        (fetchAndProcessBlock (.ok (head, blk)) now st).conn.status
          = .connected) := by
  constructor
  · exact ⟨rfl, rfl, rfl, rfl⟩
  · intro head blk h
    by_cases hz : st.lastBlockNumber = 0
    · unfold fetchAndProcessBlock
      dsimp only
      rw [if_pos hz]
    · have hlt : st.lastBlockNumber < head := by
        rcases h with h | h
        · exact absurd h hz
        · exact h
      unfold fetchAndProcessBlock
      dsimp only
      rw [if_neg hz, if_pos hlt]

/-- Witness for C7: the error tick preserves the concrete collection, and a
successful fetch of a new head out of the error state reconnects. -/
theorem error_atomicity_recovery_witness :
    (fetchAndProcessBlock (.error "boom") 7 engineSt).streams = engineSt.streams
    ∧ (fetchAndProcessBlock (.ok (6, emptyBlock)) 7 engineErr).conn.status
        = .connected :=
  ⟨(error_atomicity_recovery engineSt "boom" 7).1.1,
    (error_atomicity_recovery engineErr "boom" 7).2 6 emptyBlock
      (Or.inr (by decide))⟩

/-- A transaction moving 0.001 native units (10^15 wei). -/
def txSmall : Tx :=
  { hash := some "0xAA", value := some 1000000000000000, toAddr := some "0xBB",
    fromAddr := some "0xCC", gas := some 21000 }

/-- A transaction moving 0.02 native units (2 * 10^16 wei). -/
def txBig : Tx := { txSmall with value := some 20000000000000000 }

/-- A contract-creation transaction: no recipient address. -/
def txDeploy : Tx :=
  { hash := some "0xDD", value := some 0, toAddr := none,
    fromAddr := some "0xCC", gas := some 21000 }

lemma mkStreamPacket_eventType (now blockNumber : Nat) (blockHash : Option String)
    (index : Nat) (tx : Tx) :
    (mkStreamPacket now blockNumber blockHash index tx).eventType =
      if HIGH_VALUE_THRESHOLD < txNativeValue tx then "Transfer"
      else "Transaction" := rfl

lemma mkStreamPacket_typeDisplay (now blockNumber : Nat) (blockHash : Option String)
    (index : Nat) (tx : Tx) :
    (mkStreamPacket now blockNumber blockHash index tx).data.typeDisplay =
      if tx.toAddr.isSome then "Transfer" else "Contract Deploy" := rfl

/-- C8 counterexample: for a transaction with no recipient address, the
packet's `eventType` is "Transaction" (value ≤ 0.01), never the claimed
"Contract Deploy" — only the packet's `data.type` field carries
"Contract Deploy". -/
theorem event_classification_cex :
    txDeploy.toAddr = none
    ∧ (mkStreamPacket 0 1 none 0 txDeploy).eventType = "Transaction"
    ∧ (mkStreamPacket 0 1 none 0 txDeploy).eventType ≠ "Contract Deploy"
    ∧ (mkStreamPacket 0 1 none 0 txDeploy).data.typeDisplay = "Contract Deploy" := by
  have hv : ¬ HIGH_VALUE_THRESHOLD < txNativeValue txDeploy := by
    unfold HIGH_VALUE_THRESHOLD txNativeValue txDeploy
    norm_num
  refine ⟨rfl, ?_, ?_, rfl⟩
  · rw [mkStreamPacket_eventType, if_neg hv]
  · rw [mkStreamPacket_eventType, if_neg hv]
    decide

/-- C8 amended (event classification): `eventType` is "Transfer" exactly when
the decoded value strictly exceeds 0.01 native units and "Transaction"
otherwise, regardless of the recipient; the packet's `data.type` field (not
`eventType`) is "Contract Deploy" when no recipient address is present and
"Transfer" when one is; in particular a 0.02-unit value yields "Transfer" and
a 0.001-unit value yields "Transaction". -/
theorem event_classification (now blockNumber : Nat) (blockHash : Option String)
    (index : Nat) (tx : Tx) :
    ((mkStreamPacket now blockNumber blockHash index tx).eventType = "Transfer"
      ↔ HIGH_VALUE_THRESHOLD < txNativeValue tx)
    ∧ ((mkStreamPacket now blockNumber blockHash index tx).eventType
          = "Transaction"
      ↔ ¬ HIGH_VALUE_THRESHOLD < txNativeValue tx)
    ∧ ((mkStreamPacket now blockNumber blockHash index tx).data.typeDisplay
        = if tx.toAddr.isSome then "Transfer" else "Contract Deploy")
    ∧ (mkStreamPacket 0 1 none 0 txBig).eventType = "Transfer"
    ∧ (mkStreamPacket 0 1 none 0 txSmall).eventType = "Transaction" := by
  have hBig : HIGH_VALUE_THRESHOLD < txNativeValue txBig := by
    unfold HIGH_VALUE_THRESHOLD txNativeValue txBig txSmall
    norm_num
  have hSmall : ¬ HIGH_VALUE_THRESHOLD < txNativeValue txSmall := by
    unfold HIGH_VALUE_THRESHOLD txNativeValue txSmall
    norm_num
  refine ⟨?_, ?_, mkStreamPacket_typeDisplay now blockNumber blockHash index tx,
    by rw [mkStreamPacket_eventType, if_pos hBig],
    by rw [mkStreamPacket_eventType, if_neg hSmall]⟩
  · rw [mkStreamPacket_eventType]
    by_cases h : HIGH_VALUE_THRESHOLD < txNativeValue tx
    · rw [if_pos h]
      exact ⟨fun _ => h, fun _ => rfl⟩
    · rw [if_neg h]
      exact ⟨fun he => absurd he (by decide), fun hlt => absurd hlt h⟩
  · rw [mkStreamPacket_eventType]
    by_cases h : HIGH_VALUE_THRESHOLD < txNativeValue tx
    · rw [if_pos h]
      exact ⟨fun he => absurd he.symm (by decide), fun hn => absurd h hn⟩
    · rw [if_neg h]
      exact ⟨fun _ => h, fun _ => rfl⟩

/-- Witness for C8 at the concrete 0.02-unit transaction. -/
theorem event_classification_witness :
    (mkStreamPacket 0 1 none 0 txBig).eventType = "Transfer" :=
  (event_classification 0 1 none 0 txDeploy).2.2.2.1

end Syncer
